import Mathlib

/-!
Verification of the o2 network transport core (`src/network.cpp`).

The development shallowly embeds the data model and operations of the
transport core: length-prefixed framing and the outbound send queue
(`Fds_info::send` / `Fds_info::enqueue`), the index-synchronized socket
registry (`Fds_info::Fds_info`, `Fds_info::~Fds_info`), the deferred
deletion sweep (`o2n_free_deleted_sockets`), the incremental receive
assembler (`Fds_info::read_whole_message`), client connection setup
(`Fds_info::create_tcp_client`), socket teardown (`Fds_info::close_socket`)
and the UDP utility senders.  Machine integers are modelled as `Nat`/`Int`;
byte buffers as `List Nat`; fallible OS calls are parametrized by their
outcome.
-/

namespace O2Net

/-- A byte on the wire (values < 256 in well-formed data). -/
abbrev Byte := Nat

/-- `INVALID_SOCKET` of the C code (a sentinel socket handle). -/
def invalidSocket : Int := -1

/-- The 4-byte network-byte-order (big-endian) encoding that `htonl`
produces for the `int32_t` length field. -/
def be4 (n : Nat) : List Byte :=
  [n / 2 ^ 24 % 256, n / 2 ^ 16 % 256, n / 2 ^ 8 % 256, n % 256]

/-- Decoding of big-endian bytes, as done by `in_length = htonl(in_length)`
after the 4 header bytes have been received. -/
def beDecode (bs : List Byte) : Nat :=
  bs.foldl (fun a b => a * 256 + b) 0

@[simp] theorem be4_length (n : Nat) : (be4 n).length = 4 := rfl

theorem beDecode_be4 {n : Nat} (h : n < 2 ^ 32) : beDecode (be4 n) = n := by
  simp only [be4, beDecode, List.foldl]
  omega

/-- `o2n_message`: a length-tagged byte buffer.  `length` mirrors the
`length` field; `payload` the payload bytes.  The FIFO `next` link is
represented by membership in a `List`. -/
structure NMessage where
  length : Nat
  payload : List Byte
deriving DecidableEq, Repr

/-- A message is well-formed when its declared length matches its payload
and fits in the 32-bit length field. -/
def NMessage.wf (m : NMessage) : Prop :=
  m.length = m.payload.length ∧ m.length < 2 ^ 32

instance (m : NMessage) : Decidable m.wf := by
  unfold NMessage.wf; infer_instance

/-- The bytes a full (framed, non-raw) transmission of `m` pushes into the
socket: `Fds_info::send` writes the `htonl`-converted length field followed
immediately by the payload (`from = &msg->length`,
`n = len + sizeof msg->length`). -/
def msgWire (m : NMessage) : List Byte :=
  be4 m.length ++ m.payload

/-- `Fds_info::enqueue`'s tail insertion: walk the `next` links to the end
of the pending list and place the message there. -/
def enqueueList : List NMessage → NMessage → List NMessage
  | [], m => [m]
  | x :: xs, m => x :: enqueueList xs m

theorem enqueueList_eq_append (q : List NMessage) (m : NMessage) :
    enqueueList q m = q ++ [m] := by
  induction q with
  | nil => rfl
  | cons x xs ih => simp [enqueueList, ih]

/-! ### Byte-level model of the outbound queue (framed mode)

`SendState` captures the per-connection outbound state touched by
`Fds_info::send` / `Fds_info::enqueue` on an established connection in
framed (non-raw) mode: the FIFO of queued messages (`out_message` chain),
the byte offset into the head's framed bytes (`out_msg_sent`), the
write-interest bit of the poll descriptor (`pfd->events & POLLOUT`), and —
as observable history — the bytes written to the socket so far. -/

structure SendState where
  queue : List NMessage
  sent : Nat
  pollout : Bool
  emitted : List Byte
deriving DecidableEq, Repr

def initSend : SendState := { queue := [], sent := 0, pollout := false, emitted := [] }

/-- One `::send` syscall of the write loop in `Fds_info::send` when the
transport accepts at most `acc` bytes.  The loop computes
`n = len + sizeof msg->length - out_msg_sent` and writes from
`(char*)&msg->length + out_msg_sent`; on `err >= n` the message is freed
and the queue advances with `out_msg_sent = 0`; on a short write it adds
`err` to `out_msg_sent` and (non-blocking mode) sets `POLLOUT`. -/
def doWrite (s : SendState) (acc : Nat) : SendState :=
  match s.queue with
  | [] => s
  | m :: rest =>
    let wire := msgWire m
    let n := wire.length - s.sent
    let a := min acc n
    if n ≤ a then
      { queue := rest, sent := 0, pollout := s.pollout,
        emitted := s.emitted ++ wire.drop s.sent }
    else
      { queue := m :: rest, sent := s.sent + a, pollout := true,
        emitted := s.emitted ++ (wire.drop s.sent).take a }

/-- `Fds_info::enqueue` on an established connection: with an empty queue
the message becomes the head with `out_msg_sent = 0`; otherwise it is
appended at the tail of the pending chain. -/
def doEnq (s : SendState) (m : NMessage) : SendState :=
  if s.queue.isEmpty then
    { s with queue := [m], sent := 0 }
  else
    { s with queue := enqueueList s.queue m }

/-- An event on one established connection: a `send` call enqueuing a
message, or one write syscall (issued by `send` directly or by the
reactor's write-ready dispatch) with the transport accepting `acc` bytes. -/
inductive SEv where
  | enq (m : NMessage)
  | wr (acc : Nat)
deriving DecidableEq, Repr

def runSend (s : SendState) : List SEv → SendState
  | [] => s
  | .enq m :: evs => runSend (doEnq s m) evs
  | .wr a :: evs => runSend (doWrite s a) evs

/-- The messages enqueued by an event sequence, in enqueue order. -/
def enqs : List SEv → List NMessage
  | [] => []
  | .enq m :: evs => m :: enqs evs
  | .wr _ :: evs => enqs evs

/-- Bytes of the queue not yet written: the head's framed bytes past the
`out_msg_sent` offset, then the framings of the rest. -/
def pendingBytes (s : SendState) : List Byte :=
  match s.queue with
  | [] => []
  | m :: rest => (msgWire m).drop s.sent ++ rest.flatMap msgWire

/-- The peer's frame-by-frame parser: repeatedly take a 4-byte length
header and that many payload bytes. -/
def parseFrames (bs : List Byte) : Option (List (List Byte)) :=
  if h : bs = [] then some []
  else if h4 : bs.length < 4 then none
  else
    let L := beDecode (bs.take 4)
    let rest := bs.drop 4
    if hL : rest.length < L then none
    else
      match parseFrames (rest.drop L) with
      | some ms => some (rest.take L :: ms)
      | none => none
termination_by bs.length
decreasing_by
  simp only [List.length_drop]
  omega

/-- The state invariant tying the observable socket bytes to the queue:
emitted and pending bytes concatenate to the framings of all messages
enqueued so far, the head offset never exceeds the head's framed size,
and an empty queue has offset 0. -/
def SendInv (s : SendState) (msgs : List NMessage) : Prop :=
  s.emitted ++ pendingBytes s = msgs.flatMap msgWire ∧
  (∀ m rest, s.queue = m :: rest → s.sent ≤ (msgWire m).length) ∧
  (s.queue = [] → s.sent = 0)

theorem sendInv_init : SendInv initSend [] := by
  refine ⟨rfl, ?_, fun _ => rfl⟩
  intro m rest h
  simp [initSend] at h

theorem sendInv_doEnq {s : SendState} {msgs : List NMessage} (m : NMessage)
    (hinv : SendInv s msgs) : SendInv (doEnq s m) (msgs ++ [m]) := by
  obtain ⟨hbytes, hle, hemp⟩ := hinv
  unfold doEnq
  cases hq : s.queue with
  | nil =>
    simp only [hq, List.isEmpty_nil, if_pos]
    refine ⟨?_, ?_, by intro h; simp at h⟩
    · simp only [pendingBytes, hq] at hbytes
      simp only [pendingBytes, List.flatMap_append, ← hbytes]
      simp [msgWire]
    · intro m' rest h
      simp only at h
      obtain ⟨h1, _⟩ := List.cons.injEq .. ▸ h
      simp [← h1]
  | cons hd tl =>
    simp only [hq, List.isEmpty_cons, if_neg, Bool.false_eq_true, not_false_iff, ite_false]
    refine ⟨?_, ?_, ?_⟩
    · simp only [pendingBytes, hq, enqueueList] at hbytes ⊢
      rw [enqueueList_eq_append, List.flatMap_append, List.flatMap_append, ← hbytes]
      simp [List.append_assoc]
    · intro m' rest h
      simp only [enqueueList] at h
      obtain ⟨h1, _⟩ := List.cons.injEq .. ▸ h
      rw [← h1]
      exact hle hd tl hq
    · intro h
      simp only [enqueueList] at h
      exact absurd h (by simp)

theorem pendingBytes_of_nil {s : SendState} (h : s.queue = []) :
    pendingBytes s = [] := by
  unfold pendingBytes; rw [h]

theorem pendingBytes_of_cons {s : SendState} {m : NMessage} {rest : List NMessage}
    (h : s.queue = m :: rest) :
    pendingBytes s = (msgWire m).drop s.sent ++ rest.flatMap msgWire := by
  unfold pendingBytes; rw [h]

theorem doWrite_of_nil {s : SendState} (h : s.queue = []) (a : Nat) :
    doWrite s a = s := by
  unfold doWrite; rw [h]

theorem doWrite_finish {s : SendState} {m : NMessage} {rest : List NMessage}
    (h : s.queue = m :: rest) {a : Nat}
    (hfin : (msgWire m).length - s.sent ≤ a) :
    doWrite s a = { queue := rest, sent := 0, pollout := s.pollout,
                    emitted := s.emitted ++ (msgWire m).drop s.sent } := by
  unfold doWrite; rw [h]
  simp only []
  rw [if_pos (by omega)]

theorem doWrite_short {s : SendState} {m : NMessage} {rest : List NMessage}
    (h : s.queue = m :: rest) {a : Nat}
    (hpart : a < (msgWire m).length - s.sent) :
    doWrite s a = { queue := m :: rest, sent := s.sent + a, pollout := true,
                    emitted := s.emitted ++ ((msgWire m).drop s.sent).take a } := by
  unfold doWrite; rw [h]
  simp only []
  rw [if_neg (by omega)]
  have : min a ((msgWire m).length - s.sent) = a := by omega
  rw [this]

theorem sendInv_doWrite {s : SendState} {msgs : List NMessage} (a : Nat)
    (hinv : SendInv s msgs) : SendInv (doWrite s a) msgs := by
  obtain ⟨hbytes, hle, hemp⟩ := hinv
  cases hq : s.queue with
  | nil => rw [doWrite_of_nil hq]; exact ⟨hbytes, hle, hemp⟩
  | cons m rest =>
    have hsent := hle m rest hq
    rw [pendingBytes_of_cons hq] at hbytes
    by_cases hfin : (msgWire m).length - s.sent ≤ a
    · rw [doWrite_finish hq hfin]
      refine ⟨?_, ?_, fun _ => rfl⟩
      · cases rest with
        | nil =>
          rw [pendingBytes_of_nil (s := _) rfl]
          simpa using hbytes
        | cons m2 rest2 =>
          rw [@pendingBytes_of_cons _ m2 rest2 rfl]
          simp only [List.drop_zero]
          rw [List.append_assoc]
          simpa [List.flatMap_cons] using hbytes
      · intro m' rest' h'
        simp only at h'
        simp [Nat.zero_le]
    · push_neg at hfin
      rw [doWrite_short hq hfin]
      refine ⟨?_, ?_, by intro h'; simp at h'⟩
      · rw [@pendingBytes_of_cons _ m rest rfl]
        simp only []
        rw [← hbytes, List.append_assoc]
        congr 1
        rw [← List.append_assoc]
        congr 1
        have hdd : List.drop (s.sent + a) (msgWire m) =
            List.drop a (List.drop s.sent (msgWire m)) := by
          rw [List.drop_drop, Nat.add_comm]
        rw [hdd]
        exact List.take_append_drop a ((msgWire m).drop s.sent)
      · intro m' rest' h'
        have h'' : m :: rest = m' :: rest' := h'
        injection h'' with h1 _
        subst h1
        show s.sent + a ≤ (msgWire m).length
        omega

theorem sendInv_run {s : SendState} {msgs : List NMessage} (evs : List SEv)
    (hinv : SendInv s msgs) : SendInv (runSend s evs) (msgs ++ enqs evs) := by
  induction evs generalizing s msgs with
  | nil => simpa [runSend, enqs] using hinv
  | cons ev evs ih =>
    cases ev with
    | enq m =>
      have := ih (sendInv_doEnq m hinv)
      simpa [runSend, enqs] using this
    | wr a =>
      have := ih (sendInv_doWrite a hinv)
      simpa [runSend, enqs] using this

/-- Parsing the concatenated framings of well-formed messages recovers
exactly their payloads, in order. -/
theorem parseFrames_flatMap (msgs : List NMessage)
    (hwf : ∀ m ∈ msgs, m.wf) :
    parseFrames (msgs.flatMap msgWire) = some (msgs.map NMessage.payload) := by
  induction msgs with
  | nil => simp [parseFrames]
  | cons m rest ih =>
    obtain ⟨hlen, hlt⟩ := hwf m (by simp)
    have hrest := ih (fun m' hm' => hwf m' (by simp [hm']))
    have hw : (m :: rest).flatMap msgWire = be4 m.length ++ (m.payload ++ rest.flatMap msgWire) := by
      simp [msgWire, List.flatMap_cons, List.append_assoc]
    rw [hw]
    rw [parseFrames]
    have hne : be4 m.length ++ (m.payload ++ rest.flatMap msgWire) ≠ [] := by
      simp [be4]
    rw [dif_neg hne]
    have hlen4 : ¬(be4 m.length ++ (m.payload ++ rest.flatMap msgWire)).length < 4 := by
      simp [be4]
    rw [dif_neg hlen4]
    have htake : (be4 m.length ++ (m.payload ++ rest.flatMap msgWire)).take 4 = be4 m.length := by
      rw [List.take_append_of_le_length (by simp [be4])]
      simp [be4]
    have hdrop : (be4 m.length ++ (m.payload ++ rest.flatMap msgWire)).drop 4 =
        m.payload ++ rest.flatMap msgWire := by
      rw [List.drop_append_of_le_length (by simp [be4])]
      simp [be4]
    simp only [htake, hdrop, beDecode_be4 hlt]
    have hnl : ¬(m.payload ++ rest.flatMap msgWire).length < m.length := by
      simp [hlen]
    rw [dif_neg hnl]
    have htakeL : (m.payload ++ rest.flatMap msgWire).take m.length = m.payload := by
      rw [hlen, List.take_left]
    have hdropL : (m.payload ++ rest.flatMap msgWire).drop m.length = rest.flatMap msgWire := by
      rw [hlen, List.drop_left]
    rw [htakeL, hdropL, hrest]
    simp

@[simp] theorem msgWire_length (m : NMessage) :
    (msgWire m).length = 4 + m.payload.length := by
  simp [msgWire, be4]
  omega

/-- C1: For every sequence of send calls on one established TCP
connection, the bytes written to the socket are exactly the
length-prefixed framings of those messages in enqueue order, so the peer
parsing frame by frame receives the same messages, in the same order,
with byte-identical payloads (strict FIFO round-trip).  `evs` is any
interleaving of `enqueue` calls and write syscalls; once the queue has
drained, the socket has received exactly the concatenated framings, and
the frame parser recovers the payloads in enqueue order. -/
theorem send_fifo_roundtrip (evs : List SEv)
    (hwf : ∀ m ∈ enqs evs, m.wf)
    (hdone : (runSend initSend evs).queue = []) :
    (runSend initSend evs).emitted = (enqs evs).flatMap msgWire ∧
    parseFrames ((runSend initSend evs).emitted) =
      some ((enqs evs).map NMessage.payload) := by
  have hinv := sendInv_run evs sendInv_init
  rw [List.nil_append] at hinv
  obtain ⟨hbytes, -, -⟩ := hinv
  rw [pendingBytes_of_nil hdone, List.append_nil] at hbytes
  refine ⟨hbytes, ?_⟩
  rw [hbytes]
  exact parseFrames_flatMap _ hwf

/-- Witness for C1 at a concrete trace: two messages enqueued with an
interleaved short write; the socket bytes parse back to the two payloads
in order. -/
theorem send_fifo_roundtrip_witness :
    parseFrames ((runSend initSend
        [SEv.enq ⟨2, [10, 20]⟩, SEv.wr 3, SEv.enq ⟨1, [7]⟩,
         SEv.wr 100, SEv.wr 100]).emitted) =
      some [[10, 20], [7]] :=
  (send_fifo_roundtrip
      [SEv.enq ⟨2, [10, 20]⟩, SEv.wr 3, SEv.enq ⟨1, [7]⟩,
       SEv.wr 100, SEv.wr 100]
      (by decide) (by decide)).2

theorem ceil_div_bounds {T k : Nat} (hk : 1 ≤ k) (hT : 1 ≤ T) :
    T ≤ ((T + k - 1) / k) * k ∧ ((T + k - 1) / k - 1) * k < T := by
  set t := (T + k - 1) / k with ht
  have hk0 : 0 < k := hk
  constructor
  · by_contra hlt
    push_neg at hlt
    have h1 : (t + 1) * k ≤ T + k - 1 := by
      have : t * k + k ≤ T + k - 1 := by omega
      calc (t + 1) * k = t * k + k := by ring
        _ ≤ T + k - 1 := this
    have h2 : t + 1 ≤ (T + k - 1) / k := (Nat.le_div_iff_mul_le hk0).mpr h1
    omega
  · have ht1 : 1 ≤ t := by
      have : 1 * k ≤ T + k - 1 := by omega
      exact (Nat.le_div_iff_mul_le hk0).mpr this
    by_contra hge
    push_neg at hge
    have h1 : T + k - 1 < t * k := by
      have heq : t * k = (t - 1) * k + k := by
        have : t - 1 + 1 = t := by omega
        calc t * k = (t - 1 + 1) * k := by rw [this]
          _ = (t - 1) * k + k := by ring
      omega
    have h2 : (T + k - 1) / k < t := (Nat.div_lt_iff_lt_mul hk0).mpr h1
    omega

/-- C4: For a queued framed message of payload length `L` sent over a
socket accepting at most `k` bytes per write call (`1 ≤ k < 4 + L`),
each write advances the head's byte offset by exactly the accepted
bytes (`s * k` after `s` writes), a partial write registers
write-interest (`POLLOUT`), and after `⌈(4+L)/k⌉` write-ready events the
4-byte length prefix plus payload has been written exactly once, with no
byte re-sent or skipped. -/
theorem send_capped_transport (m : NMessage) (k : Nat)
    (hk : 1 ≤ k) (hksz : k < 4 + m.payload.length) :
    (∀ s < (4 + m.payload.length + k - 1) / k,
      (fun x => doWrite x k)^[s]
          { queue := [m], sent := 0, pollout := false, emitted := [] } =
        { queue := [m], sent := s * k, pollout := decide (0 < s),
          emitted := (msgWire m).take (s * k) }) ∧
    (fun x => doWrite x k)^[(4 + m.payload.length + k - 1) / k]
        { queue := [m], sent := 0, pollout := false, emitted := [] } =
      { queue := [], sent := 0, pollout := true, emitted := msgWire m } := by
  have hT : 1 ≤ 4 + m.payload.length := by omega
  obtain ⟨hub, hlb⟩ := ceil_div_bounds hk hT
  set T := 4 + m.payload.length with hTdef
  set t := (T + k - 1) / k with htdef
  have hwirelen : (msgWire m).length = T := msgWire_length m
  have ht1 : 1 ≤ t := by
    by_contra h0
    push_neg at h0
    interval_cases t
    simp at hub
    omega
  have hstep : ∀ s < t,
      (fun x => doWrite x k)^[s]
          { queue := [m], sent := 0, pollout := false, emitted := [] } =
        { queue := [m], sent := s * k, pollout := decide (0 < s),
          emitted := (msgWire m).take (s * k) } := by
    intro s hs
    induction s with
    | zero => simp
    | succ s ih =>
      have hs' : s < t := by omega
      have hprev := ih hs'
      rw [Function.iterate_succ_apply', hprev]
      have hlt : s * k + k < T := by
        have h1 : s + 1 ≤ t - 1 := by omega
        have h2 : (s + 1) * k ≤ (t - 1) * k := Nat.mul_le_mul_right k h1
        have h3 : (s + 1) * k = s * k + k := by ring
        omega
      have hq : ({ queue := [m], sent := s * k, pollout := decide (0 < s),
                   emitted := (msgWire m).take (s * k) } : SendState).queue
          = m :: [] := rfl
      rw [doWrite_short hq (by simp only []; omega)]
      have hsucc : s * k + k = (s + 1) * k := by ring
      have hemit : (msgWire m).take (s * k) ++ ((msgWire m).drop (s * k)).take k =
          (msgWire m).take ((s + 1) * k) := by
        rw [← hsucc, List.take_add]
      simp only [hemit, hsucc]
      simp
  refine ⟨hstep, ?_⟩
  have hlast := hstep (t - 1) (by omega)
  have hiter : (fun x => doWrite x k)^[t]
      { queue := [m], sent := 0, pollout := false, emitted := [] } =
      doWrite ((fun x => doWrite x k)^[t - 1]
        { queue := [m], sent := 0, pollout := false, emitted := [] }) k := by
    have heq : t = (t - 1) + 1 := by omega
    nth_rewrite 1 [heq]
    rw [Function.iterate_succ_apply']
  rw [hiter, hlast]
  have hq : ({ queue := [m], sent := (t - 1) * k, pollout := decide (0 < t - 1),
               emitted := (msgWire m).take ((t - 1) * k) } : SendState).queue
      = m :: [] := rfl
  have hfin : (msgWire m).length - (t - 1) * k ≤ k := by
    have heq : t * k = (t - 1) * k + k := by
      have h : t - 1 + 1 = t := by omega
      calc t * k = (t - 1 + 1) * k := by rw [h]
        _ = (t - 1) * k + k := by ring
    omega
  rw [doWrite_finish hq hfin]
  have hemit : (msgWire m).take ((t - 1) * k) ++ (msgWire m).drop ((t - 1) * k) =
      msgWire m := List.take_append_drop _ _
  have hpo : decide (0 < t - 1) = true ∨ (t - 1) = 0 := by
    by_cases h : 0 < t - 1
    · left; simp [h]
    · right; omega
  rcases hpo with hpo | hpo
  · simp only [hemit, hpo]
  · -- t = 1 would mean k ≥ T, contradicting k < 4 + L
    exfalso
    have : (t - 1) * k < T := hlb
    have ht1' : t = 1 := by omega
    rw [ht1'] at hub
    simp at hub
    omega

/-- Witness for C4: payload length 6, cap `k = 3`; `⌈10/3⌉ = 4` write
events deliver the frame, with the offset at 3 and interest registered
after the first write. -/
theorem send_capped_transport_witness :
    ((fun x => doWrite x 3)^[1]
        { queue := [⟨6, [1, 2, 3, 4, 5, 6]⟩], sent := 0, pollout := false,
          emitted := [] } =
      { queue := [⟨6, [1, 2, 3, 4, 5, 6]⟩], sent := 3, pollout := true,
        emitted := (msgWire ⟨6, [1, 2, 3, 4, 5, 6]⟩).take 3 }) ∧
    ((fun x => doWrite x 3)^[4]
        { queue := [⟨6, [1, 2, 3, 4, 5, 6]⟩], sent := 0, pollout := false,
          emitted := [] } =
      { queue := [], sent := 0, pollout := true,
        emitted := msgWire ⟨6, [1, 2, 3, 4, 5, 6]⟩ }) := by
  have h := send_capped_transport ⟨6, [1, 2, 3, 4, 5, 6]⟩ 3 (by decide) (by decide)
  exact ⟨by simpa using h.1 1 (by decide), by simpa using h.2⟩

/-! ### Connection objects and teardown -/

/-- The `net_tag` values of `Fds_info` (connection states). -/
inductive NetTag where
  | udpServer
  | tcpServer
  | tcpConnecting
  | tcpClient
  | tcpConnection
  | infoClosed
deriving DecidableEq, Repr

/-- A single `Fds_info` together with its poll descriptor: the fields
touched by `send`, `close_socket` and the read path.  `fd`/`pollout`
mirror `pfd->fd` and `pfd->events & POLLOUT`; `delete_flag` mirrors the
process-wide `o2n_socket_delete_flag` contribution of this connection's
`close_socket` calls. -/
structure Conn where
  net_tag : NetTag
  delete_me : Bool
  raw_flag : Bool
  in_message : Option NMessage
  out_message : List NMessage
  out_msg_sent : Nat
  fd : Int
  pollout : Bool
deriving DecidableEq, Repr

/-- `Fds_info::close_socket`: free the inbound assembly message, free
every queued outbound message, and — if the socket is still open —
shut it down, close it, invalidate the descriptor and enter
`NET_INFO_CLOSED`; finally set `delete_me` (and the process-wide delete
flag).  The second component reports whether a `closesocket` syscall was
performed by this call. -/
def close_socket (c : Conn) : Conn × Bool :=
  let c1 : Conn := { c with in_message := none, out_message := [] }
  if c1.fd ≠ invalidSocket then
    ({ c1 with fd := invalidSocket, net_tag := .infoClosed, delete_me := true },
     true)
  else
    ({ c1 with delete_me := true }, false)

/-- Return values of `Fds_info::send` relevant to the error paths. -/
inductive O2err where
  | success
  | fail
  | blocked
deriving DecidableEq, Repr

/-- Outcome of one non-blocking `::send` syscall: `accepted n` bytes
written, a retryable error (`EAGAIN`/`EWOULDBLOCK`/`EINTR`, i.e.
`!TERMINATING_SOCKET_ERROR`), or a terminating socket error. -/
inductive WriteRes where
  | accepted (n : Nat)
  | wouldBlock
  | fatalErr
deriving DecidableEq, Repr

/-- Whether the while loop of `Fds_info::send` runs another iteration
(`loops`) or returns (`done`). -/
inductive SendOutcome where
  | done (e : O2err)
  | loops
deriving DecidableEq, Repr

/-- One iteration of the non-blocking (`block = false`) path of
`Fds_info::send`: the closed-socket guard, then one write syscall on the
head message.  On a retryable error it sets `POLLOUT` and returns
`O2_BLOCKED`; on a terminating error it calls `close_socket` and returns
`O2_FAIL`; on `err >= n` it frees the head and loops; on a short write it
advances `out_msg_sent`, sets `POLLOUT` and returns `O2_BLOCKED`. -/
def sendIter (c : Conn) (res : WriteRes) : SendOutcome × Conn :=
  if c.net_tag = .infoClosed then (.done .fail, c)
  else
    match c.out_message with
    | [] => (.done .success, c)
    | m :: rest =>
      let wire := if c.raw_flag then m.payload else msgWire m
      let n := wire.length - c.out_msg_sent
      match res with
      | .wouldBlock => (.done .blocked, { c with pollout := true })
      | .fatalErr => (.done .fail, (close_socket c).1)
      | .accepted a =>
        let a := min a n
        if n ≤ a then
          (.loops, { c with out_message := rest, out_msg_sent := 0 })
        else
          (.done .blocked,
           { c with out_message := m :: rest, out_msg_sent := c.out_msg_sent + a,
                    pollout := true })

/-- C6: When a non-blocking send attempt hits a retryable error
(would-block or interrupted), `send` returns `O2_BLOCKED`: the head
message remains at the head of the outbound queue, the bytes-sent offset
and all other connection state are unchanged except that write-interest
is registered, and nothing is surfaced as an error (no `O2_FAIL`, no
teardown, no pending-deletion mark). -/
theorem send_retryable_blocked (c : Conn) (m : NMessage) (rest : List NMessage)
    (hq : c.out_message = m :: rest) (hopen : c.net_tag ≠ .infoClosed) :
    sendIter c .wouldBlock = (.done .blocked, { c with pollout := true }) := by
  unfold sendIter
  rw [if_neg hopen, hq]

/-- Witness for C6: a concrete client connection with two queued
messages mid-send; a would-block leaves everything but `POLLOUT` as it
was. -/
theorem send_retryable_blocked_witness :
    sendIter
        { net_tag := .tcpClient, delete_me := false, raw_flag := false,
          in_message := none, out_message := [⟨1, [5]⟩, ⟨2, [6, 7]⟩],
          out_msg_sent := 3, fd := 9, pollout := false } .wouldBlock =
      (.done .blocked,
       { net_tag := .tcpClient, delete_me := false, raw_flag := false,
         in_message := none, out_message := [⟨1, [5]⟩, ⟨2, [6, 7]⟩],
         out_msg_sent := 3, fd := 9, pollout := true }) :=
  send_retryable_blocked _ ⟨1, [5]⟩ [⟨2, [6, 7]⟩] rfl (by decide)

/-- C7: When a send attempt hits a fatal socket error, `send` reports
`O2_FAIL`, every queued message on the connection is freed, the
connection transitions to terminal `NET_INFO_CLOSED` with its
pending-deletion flag set, and no further send is attempted on it
(`send` on the closed connection immediately fails without touching
the socket or the owner). -/
theorem send_fatal_teardown (c : Conn) (m : NMessage) (rest : List NMessage)
    (hq : c.out_message = m :: rest) (hopen : c.net_tag ≠ .infoClosed)
    (hfd : c.fd ≠ invalidSocket) :
    (sendIter c .fatalErr).1 = .done .fail ∧
    (sendIter c .fatalErr).2.out_message = [] ∧
    (sendIter c .fatalErr).2.in_message = none ∧
    (sendIter c .fatalErr).2.net_tag = .infoClosed ∧
    (sendIter c .fatalErr).2.delete_me = true ∧
    (∀ res : WriteRes,
      sendIter (sendIter c .fatalErr).2 res = (.done .fail, (sendIter c .fatalErr).2)) := by
  have hstep : sendIter c .fatalErr = (.done .fail, (close_socket c).1) := by
    unfold sendIter
    rw [if_neg hopen, hq]
  have hclosed : (close_socket c).1 =
      { c with in_message := none, out_message := [], fd := invalidSocket,
               net_tag := .infoClosed, delete_me := true } := by
    unfold close_socket
    rw [if_pos (by simpa using hfd)]
  rw [hstep, hclosed]
  refine ⟨rfl, rfl, rfl, rfl, rfl, ?_⟩
  intro res
  unfold sendIter
  rw [if_pos rfl]

/-- Witness for C7: Scenario B — a client with two messages still
queued hits a terminating send error; the queue is freed, the connection
is CLOSED and marked for deletion, and a retry immediately fails. -/
theorem send_fatal_teardown_witness :
    (sendIter
        { net_tag := .tcpClient, delete_me := false, raw_flag := false,
          in_message := none, out_message := [⟨1, [5]⟩, ⟨2, [6, 7]⟩],
          out_msg_sent := 0, fd := 9, pollout := false } .fatalErr).2.out_message = []
    ∧ (sendIter
        { net_tag := .tcpClient, delete_me := false, raw_flag := false,
          in_message := none, out_message := [⟨1, [5]⟩, ⟨2, [6, 7]⟩],
          out_msg_sent := 0, fd := 9, pollout := false } .fatalErr).2.net_tag
      = .infoClosed := by
  have h := send_fatal_teardown
    { net_tag := .tcpClient, delete_me := false, raw_flag := false,
      in_message := none, out_message := [⟨1, [5]⟩, ⟨2, [6, 7]⟩],
      out_msg_sent := 0, fd := 9, pollout := false }
    ⟨1, [5]⟩ [⟨2, [6, 7]⟩] rfl (by decide) (by decide)
  exact ⟨h.2.1, h.2.2.2.1⟩

/-- C10: `close_socket` is idempotent: after one call on a connection
with an open socket, the inbound assembly message is `NULL`, the
outbound queue is empty, the descriptor's fd is `INVALID_SOCKET`, the
state is `NET_INFO_CLOSED` and `delete_me` is set; a second call leaves
all of this unchanged and performs no `closesocket` syscall. -/
theorem close_socket_idempotent (c : Conn) (hfd : c.fd ≠ invalidSocket) :
    (close_socket c).1.in_message = none ∧
    (close_socket c).1.out_message = [] ∧
    (close_socket c).1.fd = invalidSocket ∧
    (close_socket c).1.net_tag = .infoClosed ∧
    (close_socket c).1.delete_me = true ∧
    (close_socket c).2 = true ∧
    close_socket (close_socket c).1 = ((close_socket c).1, false) := by
  have hclosed : close_socket c =
      ({ c with in_message := none, out_message := [], fd := invalidSocket,
                net_tag := .infoClosed, delete_me := true }, true) := by
    unfold close_socket
    rw [if_pos (by simpa using hfd)]
  rw [hclosed]
  refine ⟨rfl, rfl, rfl, rfl, rfl, rfl, ?_⟩
  unfold close_socket
  rw [if_neg (by simp)]

/-- Witness for C10 on a concrete accepted connection with pending
inbound and outbound messages. -/
theorem close_socket_idempotent_witness :
    close_socket (close_socket
        { net_tag := .tcpConnection, delete_me := false, raw_flag := false,
          in_message := some ⟨1, [9]⟩, out_message := [⟨1, [5]⟩],
          out_msg_sent := 0, fd := 7, pollout := true }).1 =
      ((close_socket
        { net_tag := .tcpConnection, delete_me := false, raw_flag := false,
          in_message := some ⟨1, [9]⟩, out_message := [⟨1, [5]⟩],
          out_msg_sent := 0, fd := 7, pollout := true }).1, false) :=
  (close_socket_idempotent
    { net_tag := .tcpConnection, delete_me := false, raw_flag := false,
      in_message := some ⟨1, [9]⟩, out_message := [⟨1, [5]⟩],
      out_msg_sent := 0, fd := 7, pollout := true } (by decide)).2.2.2.2.2.2

/-! ### The socket registry (`o2n_fds` / `o2n_fds_info`)

Two parallel sequences: poll descriptors and `Fds_info` objects.  The
`Fds_info` constructor appends one entry to each; the destructor removes
its entry by swap-with-last compaction and re-stamps the moved entry's
`fds_index`, then notifies the owner's `remove()` hook.  The hook (an
upper layer) may close further connections, which sets their `delete_me`
and the process-wide delete flag; we model a hook as the set of
connection identities it closes. -/

structure Pollfd where
  fd : Int
  pollout : Bool
deriving DecidableEq, Repr

structure RInfo where
  id : Nat
  sock : Int
  fds_index : Nat
  net_tag : NetTag
  delete_me : Bool
  hook : List Nat
deriving DecidableEq, Repr

def dummyInfo : RInfo :=
  { id := 0, sock := invalidSocket, fds_index := 0, net_tag := .infoClosed,
    delete_me := false, hook := [] }

structure Reg where
  fds : List Pollfd
  infos : List RInfo
  deleteFlag : Bool
deriving DecidableEq, Repr

/-- `Fds_info::Fds_info(sock, net_tag, port)`: capture
`fds_index = o2n_fds.size()`, push the info, append a poll descriptor
with `fd = sock` and `events = POLLIN` (no write interest). -/
def mkFdsInfo (reg : Reg) (sock : Int) (tag : NetTag) (id : Nat)
    (hook : List Nat) : Reg :=
  { reg with
    infos := reg.infos ++
      [{ id := id, sock := sock, fds_index := reg.fds.length, net_tag := tag,
         delete_me := false, hook := hook }],
    fds := reg.fds ++ [{ fd := sock, pollout := false }] }

/-- The array manipulation of `Fds_info::~Fds_info`: if the entry is not
last, copy the last poll descriptor over slot `i`, move the last info to
slot `i` and re-stamp its `fds_index`; then pop both arrays. -/
def compactAt (reg : Reg) (i : Nat) : Reg :=
  let reg1 :=
    if i + 1 < reg.fds.length then
      { reg with
        fds := reg.fds.set i (reg.fds.getD (reg.fds.length - 1) { fd := invalidSocket, pollout := false }),
        infos := reg.infos.set i
          { reg.infos.getD (reg.infos.length - 1) dummyInfo with fds_index := i } }
    else reg
  { reg1 with fds := reg1.fds.dropLast, infos := reg1.infos.dropLast }

/-- The owner `remove()` hook run at the end of the destructor: it calls
`close_socket` on each connection it owns that is still registered; each
such call sets that connection's `delete_me` and the process-wide delete
flag. -/
def runRemoveHook (reg : Reg) (hook : List Nat) : Reg :=
  { reg with
    infos := reg.infos.map
      (fun fi => if fi.id ∈ hook then { fi with delete_me := true } else fi),
    deleteFlag := reg.deleteFlag || reg.infos.any (fun fi => fi.id ∈ hook) }

/-- `delete fi` for the entry at index `i`: the destructor's compaction
followed by the owner's `remove()` notification. -/
def deleteAt (reg : Reg) (i : Nat) : Reg :=
  runRemoveHook (compactAt reg i) (reg.infos.getD i dummyInfo).hook

@[simp] theorem compactAt_fds_length {reg : Reg} {i : Nat} :
    (compactAt reg i).fds.length = reg.fds.length - 1 := by
  unfold compactAt
  by_cases hc : i + 1 < reg.fds.length <;> simp [hc]

@[simp] theorem compactAt_infos_length {reg : Reg} {i : Nat} :
    (compactAt reg i).infos.length = reg.infos.length - 1 := by
  unfold compactAt
  by_cases hc : i + 1 < reg.fds.length <;> simp [hc]

@[simp] theorem runRemoveHook_infos_length {reg : Reg} {hook : List Nat} :
    (runRemoveHook reg hook).infos.length = reg.infos.length := by
  simp [runRemoveHook]

@[simp] theorem deleteAt_infos_length {reg : Reg} {i : Nat} :
    (deleteAt reg i).infos.length = reg.infos.length - 1 := by
  unfold deleteAt
  rw [runRemoveHook_infos_length, compactAt_infos_length]

def dfltFd : Pollfd := { fd := invalidSocket, pollout := false }

/-- The registry invariant: the two parallel arrays have equal length,
every info's stored `fds_index` equals its position, and descriptor and
info at each position describe the same socket. -/
def RegInv (reg : Reg) : Prop :=
  reg.fds.length = reg.infos.length ∧
  ∀ i, i < reg.infos.length →
    (reg.infos.getD i dummyInfo).fds_index = i ∧
    (reg.fds.getD i dfltFd).fd = (reg.infos.getD i dummyInfo).sock

instance (reg : Reg) : Decidable (RegInv reg) := by
  unfold RegInv; infer_instance

theorem getD_of_lt {α : Type} (l : List α) (d : α) {i : Nat} (h : i < l.length) :
    l.getD i d = l[i] := by
  simp [List.getD_eq_getElem?_getD, List.getElem?_eq_getElem h]

theorem regInv_mkFdsInfo {reg : Reg} (hinv : RegInv reg) (sock : Int)
    (tag : NetTag) (id : Nat) (hook : List Nat) :
    RegInv (mkFdsInfo reg sock tag id hook) := by
  obtain ⟨hlen, hidx⟩ := hinv
  refine ⟨by simp [mkFdsInfo, hlen], ?_⟩
  intro i hi
  simp only [mkFdsInfo, List.length_append, List.length_cons, List.length_nil] at hi
  by_cases hlt : i < reg.infos.length
  · have h1 : (mkFdsInfo reg sock tag id hook).infos.getD i dummyInfo =
        reg.infos.getD i dummyInfo := by
      simp only [mkFdsInfo]
      exact List.getD_append _ _ _ _ hlt
    have h2 : (mkFdsInfo reg sock tag id hook).fds.getD i dfltFd =
        reg.fds.getD i dfltFd := by
      simp only [mkFdsInfo]
      exact List.getD_append _ _ _ _ (by omega)
    rw [h1, h2]
    exact hidx i hlt
  · have hieq : i = reg.infos.length := by omega
    subst hieq
    have h1 : (mkFdsInfo reg sock tag id hook).infos.getD reg.infos.length dummyInfo =
        { id := id, sock := sock, fds_index := reg.fds.length, net_tag := tag,
          delete_me := false, hook := hook } := by
      simp only [mkFdsInfo]
      rw [List.getD_append_right _ _ _ _ (by omega)]
      simp
    have h2 : (mkFdsInfo reg sock tag id hook).fds.getD reg.infos.length dfltFd =
        { fd := sock, pollout := false } := by
      simp only [mkFdsInfo]
      rw [List.getD_append_right _ _ _ _ (by omega)]
      rw [hlen]
      simp
    rw [h1, h2, hlen]
    exact ⟨rfl, rfl⟩

theorem getD_dropLast {α : Type} {l : List α} {d : α} {j : Nat}
    (h : j < l.length - 1) : l.dropLast.getD j d = l.getD j d := by
  rw [getD_of_lt _ _ (by simp; omega), getD_of_lt _ _ (by omega)]
  exact List.getElem_dropLast l j _

theorem getD_set_ne {α : Type} {l : List α} {i j : Nat} {x d : α}
    (hne : i ≠ j) (hj : j < l.length) : (l.set i x).getD j d = l.getD j d := by
  rw [getD_of_lt _ _ (by simp; omega), getD_of_lt _ _ hj]
  exact List.getElem_set_ne hne _

theorem getD_set_self {α : Type} {l : List α} {i : Nat} {x d : α}
    (hi : i < l.length) : (l.set i x).getD i d = x := by
  rw [getD_of_lt _ _ (by simp; omega)]
  exact List.getElem_set_eq _

theorem compactAt_infos_getD_ne {reg : Reg} {i j : Nat}
    (hj : j < reg.infos.length - 1) (hne : j ≠ i) :
    (compactAt reg i).infos.getD j dummyInfo = reg.infos.getD j dummyInfo := by
  unfold compactAt
  by_cases hc : i + 1 < reg.fds.length
  · simp only [hc, if_pos]
    rw [getD_dropLast (by simp; omega), getD_set_ne (fun h => hne h.symm) (by omega)]
  · simp only [hc, if_neg, ite_false]
    exact getD_dropLast hj

theorem compactAt_fds_getD_ne {reg : Reg} {i j : Nat}
    (hlen : reg.fds.length = reg.infos.length)
    (hj : j < reg.infos.length - 1) (hne : j ≠ i) :
    (compactAt reg i).fds.getD j dfltFd = reg.fds.getD j dfltFd := by
  unfold compactAt
  by_cases hc : i + 1 < reg.fds.length
  · simp only [hc, if_pos]
    rw [getD_dropLast (by simp; omega), getD_set_ne (fun h => hne h.symm) (by omega)]
  · simp only [hc, if_neg, ite_false]
    exact getD_dropLast (by omega)

theorem compactAt_infos_getD_moved {reg : Reg} {i : Nat}
    (hlen : reg.fds.length = reg.infos.length)
    (hc : i + 1 < reg.infos.length) :
    (compactAt reg i).infos.getD i dummyInfo =
      { reg.infos.getD (reg.infos.length - 1) dummyInfo with fds_index := i } := by
  unfold compactAt
  simp only [hlen, hc, if_pos]
  rw [getD_dropLast (by simp; omega), getD_set_self (by omega)]

theorem compactAt_fds_getD_moved {reg : Reg} {i : Nat}
    (hlen : reg.fds.length = reg.infos.length)
    (hc : i + 1 < reg.infos.length) :
    (compactAt reg i).fds.getD i dfltFd =
      reg.fds.getD (reg.fds.length - 1) dfltFd := by
  unfold compactAt
  simp only [hlen, hc, if_pos]
  rw [getD_dropLast (by simp; omega), getD_set_self (by omega)]
  rfl

theorem runRemoveHook_infos_getD_fields {reg : Reg} {hook : List Nat} {j : Nat}
    (hj : j < reg.infos.length) :
    ((runRemoveHook reg hook).infos.getD j dummyInfo).id =
        (reg.infos.getD j dummyInfo).id ∧
    ((runRemoveHook reg hook).infos.getD j dummyInfo).sock =
        (reg.infos.getD j dummyInfo).sock ∧
    ((runRemoveHook reg hook).infos.getD j dummyInfo).fds_index =
        (reg.infos.getD j dummyInfo).fds_index := by
  unfold runRemoveHook
  rw [getD_of_lt _ _ (by simp [hj]), getD_of_lt _ _ hj]
  simp only [List.getElem_map]
  by_cases hm : (reg.infos[j]).id ∈ hook <;> simp [hm]

@[simp] theorem runRemoveHook_fds {reg : Reg} {hook : List Nat} :
    (runRemoveHook reg hook).fds = reg.fds := rfl

theorem regInv_deleteAt {reg : Reg} (hinv : RegInv reg) {i : Nat}
    (hi : i < reg.infos.length) : RegInv (deleteAt reg i) := by
  obtain ⟨hlen, hidx⟩ := hinv
  have hfl : (compactAt reg i).fds.length = reg.fds.length - 1 :=
    compactAt_fds_length
  have hil : (compactAt reg i).infos.length = reg.infos.length - 1 :=
    compactAt_infos_length
  refine ⟨?_, ?_⟩
  · unfold deleteAt
    simp only [runRemoveHook_fds, runRemoveHook_infos_length, hfl, hil, hlen]
  · intro j hj
    unfold deleteAt at hj ⊢
    rw [runRemoveHook_infos_length, hil] at hj
    obtain ⟨-, hsock, hfidx⟩ :=
      @runRemoveHook_infos_getD_fields (compactAt reg i)
        (reg.infos.getD i dummyInfo).hook j (by omega)
    rw [runRemoveHook_fds, hfidx, hsock]
    by_cases hji : j = i
    · subst hji
      have hc : j + 1 < reg.infos.length := by omega
      rw [compactAt_infos_getD_moved hlen hc, compactAt_fds_getD_moved hlen hc]
      refine ⟨rfl, ?_⟩
      have := hidx (reg.infos.length - 1) (by omega)
      rw [hlen]
      exact this.2
    · rw [compactAt_infos_getD_ne hj hji, compactAt_fds_getD_ne hlen hj hji]
      exact hidx j (by omega)

/-- C2: After every registration and every removal, the poll-descriptor
array and the connection array have equal length, and for every valid
index the descriptor and connection describe the same socket with the
connection's stored index equal to its position; deleting at index `i`
(when `i` is not last) moves the formerly-last connection to index `i`,
re-stamps its stored index to `i`, and shrinks both arrays by exactly
one. -/
theorem registry_index_sync (reg : Reg) (hinv : RegInv reg) (sock : Int)
    (tag : NetTag) (id : Nat) (hook : List Nat) (i : Nat)
    (hi : i < reg.infos.length) :
    RegInv (mkFdsInfo reg sock tag id hook) ∧
    (mkFdsInfo reg sock tag id hook).infos.length = reg.infos.length + 1 ∧
    RegInv (deleteAt reg i) ∧
    (deleteAt reg i).infos.length = reg.infos.length - 1 ∧
    (deleteAt reg i).fds.length = reg.fds.length - 1 ∧
    (i + 1 < reg.infos.length →
      ((deleteAt reg i).infos.getD i dummyInfo).id =
          (reg.infos.getD (reg.infos.length - 1) dummyInfo).id ∧
      ((deleteAt reg i).infos.getD i dummyInfo).sock =
          (reg.infos.getD (reg.infos.length - 1) dummyInfo).sock ∧
      ((deleteAt reg i).infos.getD i dummyInfo).fds_index = i ∧
      (deleteAt reg i).fds.getD i dfltFd =
          reg.fds.getD (reg.fds.length - 1) dfltFd) := by
  have hlen := hinv.1
  refine ⟨regInv_mkFdsInfo hinv sock tag id hook, by simp [mkFdsInfo],
          regInv_deleteAt hinv hi, deleteAt_infos_length, ?_, ?_⟩
  · unfold deleteAt
    rw [runRemoveHook_fds, compactAt_fds_length]
  · intro hc
    obtain ⟨hid, hsock, hfidx⟩ :=
      @runRemoveHook_infos_getD_fields (compactAt reg i)
        (reg.infos.getD i dummyInfo).hook i
        (by rw [compactAt_infos_length]; omega)
    unfold deleteAt
    rw [hid, hsock, hfidx, runRemoveHook_fds,
        compactAt_infos_getD_moved hlen hc, compactAt_fds_getD_moved hlen hc]
    exact ⟨rfl, rfl, rfl, rfl⟩

/-- Witness for C2 on a three-entry registry, deleting index 0: the
last entry (id 30) moves to slot 0 with its index re-stamped. -/
theorem registry_index_sync_witness :
    RegInv (deleteAt
      (mkFdsInfo (mkFdsInfo (mkFdsInfo ⟨[], [], false⟩ 5 .tcpServer 10 [])
        6 .tcpClient 20 []) 7 .tcpConnection 30 []) 0) ∧
    ((deleteAt
      (mkFdsInfo (mkFdsInfo (mkFdsInfo ⟨[], [], false⟩ 5 .tcpServer 10 [])
        6 .tcpClient 20 []) 7 .tcpConnection 30 []) 0).infos.getD 0 dummyInfo).id
      = 30 := by
  have h := registry_index_sync
    (mkFdsInfo (mkFdsInfo (mkFdsInfo ⟨[], [], false⟩ 5 .tcpServer 10 [])
      6 .tcpClient 20 []) 7 .tcpConnection 30 [])
    (by decide) 99 .udpServer 40 [] 0 (by decide)
  refine ⟨h.2.2.1, ?_⟩
  have h2 := (h.2.2.2.2.2 (by decide)).1
  rw [h2]
  decide

/-! ### The deferred deletion sweep (`o2n_free_deleted_sockets`) -/

/-- The inner scan of `o2n_free_deleted_sockets`: walk the registry from
index `i`; a `delete_me` entry is deleted (the last entry replaces it, so
the same index is re-examined), otherwise move on to `i + 1`. -/
def scanPass (reg : Reg) (i : Nat) : Reg :=
  if h : i < reg.infos.length then
    if (reg.infos.getD i dummyInfo).delete_me then
      scanPass (deleteAt reg i) i
    else
      scanPass reg (i + 1)
  else reg
termination_by reg.infos.length - i
decreasing_by
  · rw [deleteAt_infos_length]; omega
  · omega

/-- `o2n_free_deleted_sockets`: while the process-wide delete flag is
set, clear it and run a full scan; hooks that run during the scan may
re-set the flag, forcing another pass.  `fuel` bounds the number of
outer passes (the loop terminates because each extra pass deleted at
least one entry). -/
def o2n_free_deleted_sockets (fuel : Nat) (reg : Reg) : Reg :=
  match fuel with
  | 0 => reg
  | fuel + 1 =>
    if reg.deleteFlag then
      o2n_free_deleted_sockets fuel (scanPass { reg with deleteFlag := false } 0)
    else reg

/-- No registered connection is pending deletion. -/
def Clean (reg : Reg) : Prop :=
  ∀ fi ∈ reg.infos, fi.delete_me = false

instance (reg : Reg) : Decidable (Clean reg) := by
  unfold Clean; infer_instance

theorem scanPass_length_le (reg : Reg) (i : Nat) :
    (scanPass reg i).infos.length ≤ reg.infos.length := by
  induction reg, i using scanPass.induct with
  | case1 reg i h hdel ih =>
    rw [scanPass, dif_pos h, if_pos hdel]
    calc (scanPass (deleteAt reg i) i).infos.length
        ≤ (deleteAt reg i).infos.length := ih
      _ ≤ reg.infos.length := by rw [deleteAt_infos_length]; omega
  | case2 reg i h hdel ih =>
    rw [scanPass, dif_pos h, if_neg hdel]
    exact ih
  | case3 reg i h =>
    rw [scanPass, dif_neg h]

theorem scanPass_flag_shrink (reg : Reg) (i : Nat)
    (hflag : reg.deleteFlag = false)
    (hout : (scanPass reg i).deleteFlag = true) :
    (scanPass reg i).infos.length < reg.infos.length := by
  induction reg, i using scanPass.induct with
  | case1 reg i h hdel ih =>
    rw [scanPass, dif_pos h, if_pos hdel] at hout ⊢
    calc (scanPass (deleteAt reg i) i).infos.length
        ≤ (deleteAt reg i).infos.length := scanPass_length_le _ _
      _ < reg.infos.length := by rw [deleteAt_infos_length]; omega
  | case2 reg i h hdel ih =>
    rw [scanPass, dif_pos h, if_neg hdel] at hout ⊢
    exact ih hflag hout
  | case3 reg i h =>
    rw [scanPass, dif_neg h] at hout
    rw [hflag] at hout
    exact absurd hout (by simp)

theorem deleteAt_flag_false {reg : Reg} {i : Nat}
    (h : (deleteAt reg i).deleteFlag = false) :
    reg.deleteFlag = false ∧
    (deleteAt reg i).infos = (compactAt reg i).infos := by
  have hcflag : (compactAt reg i).deleteFlag = reg.deleteFlag := by
    unfold compactAt
    by_cases hc : i + 1 < reg.fds.length <;> simp [hc]
  unfold deleteAt runRemoveHook at h
  simp only [Bool.or_eq_false_iff] at h
  obtain ⟨h1, h2⟩ := h
  refine ⟨by rw [← hcflag]; exact h1, ?_⟩
  unfold deleteAt runRemoveHook
  simp only []
  rw [List.any_eq_false] at h2
  conv_rhs => rw [← List.map_id ((compactAt reg i).infos)]
  apply List.map_congr_left
  intro fi hfi
  have hnm := h2 fi hfi
  simp only [decide_eq_true_eq] at hnm
  rw [if_neg hnm]
  rfl

theorem scanPass_clean (reg : Reg) (i : Nat)
    (hpre : reg.deleteFlag = false →
      ∀ j, j < reg.infos.length → j < i →
        (reg.infos.getD j dummyInfo).delete_me = false)
    (hout : (scanPass reg i).deleteFlag = false) :
    Clean (scanPass reg i) := by
  induction reg, i using scanPass.induct with
  | case1 reg i h hdel ih =>
    rw [scanPass, dif_pos h, if_pos hdel] at hout ⊢
    refine ih ?_ hout
    intro hf j hj hji
    obtain ⟨hrf, hinfos⟩ := deleteAt_flag_false hf
    rw [hinfos]
    rw [deleteAt_infos_length] at hj
    rw [compactAt_infos_getD_ne (by omega) (by omega)]
    exact hpre hrf j (by omega) (by omega)
  | case2 reg i h hdel ih =>
    rw [scanPass, dif_pos h, if_neg hdel] at hout ⊢
    refine ih ?_ hout
    intro hf j hj hji
    by_cases hji' : j < i
    · exact hpre hf j hj hji'
    · have : j = i := by omega
      subst this
      simpa using hdel
  | case3 reg i h =>
    rw [scanPass, dif_neg h] at hout ⊢
    intro fi hfi
    obtain ⟨j, hj, hfij⟩ := List.mem_iff_getElem.mp hfi
    have := hpre hout j hj (by omega)
    rw [getD_of_lt _ _ hj] at this
    rw [← hfij]
    exact this

/-- C3: A single invocation of the deferred sweep
(`o2n_free_deleted_sockets`) removes every connection whose
pending-deletion flag is set, including connections newly marked by
`remove()` hooks running during the same sweep, and returns only after a
full pass removes nothing: afterwards no registered connection has
`delete_me` set and the process-wide delete flag is clear, so no second
external tick is required.  The fuel bound `length + 2` always suffices
(each extra pass has deleted at least one connection); the hypothesis
`hinv` states the system invariant that a set `delete_me` is always
accompanied by the process-wide flag (both are set together by
`close_socket`). -/
theorem sweep_removes_all_pending (fuel : Nat) (reg : Reg)
    (hfuel : reg.infos.length + 2 ≤ fuel)
    (hinv : reg.deleteFlag = false → Clean reg) :
    (o2n_free_deleted_sockets fuel reg).deleteFlag = false ∧
    Clean (o2n_free_deleted_sockets fuel reg) := by
  induction fuel generalizing reg with
  | zero => omega
  | succ fuel ih =>
    rw [o2n_free_deleted_sockets]
    by_cases hflag : reg.deleteFlag = true
    · rw [if_pos hflag]
      by_cases hflag' : (scanPass { reg with deleteFlag := false } 0).deleteFlag = true
      · have hsh : (scanPass { reg with deleteFlag := false } 0).infos.length <
            reg.infos.length := by
          have := scanPass_flag_shrink { reg with deleteFlag := false } 0 rfl hflag'
          simpa using this
        exact ih _ (by omega) (fun hf => absurd hflag' (by rw [hf]; simp))
      · have hff : (scanPass { reg with deleteFlag := false } 0).deleteFlag = false := by
          simpa using hflag'
        have hres : o2n_free_deleted_sockets fuel
            (scanPass { reg with deleteFlag := false } 0) =
            scanPass { reg with deleteFlag := false } 0 := by
          cases fuel with
          | zero => rfl
          | succ f => rw [o2n_free_deleted_sockets, if_neg (by rw [hff]; simp)]
        rw [hres]
        refine ⟨hff, scanPass_clean _ 0 ?_ hff⟩
        intro _ j _ hj0
        omega
    · rw [if_neg hflag]
      have hff : reg.deleteFlag = false := by simpa using hflag
      exact ⟨hff, hinv hff⟩

/-- Witness for C3: a two-entry registry where entry 1 is pending
deletion and its owner's `remove()` hook closes entry 2; one sweep
removes both. -/
theorem sweep_removes_all_pending_witness :
    (o2n_free_deleted_sockets 4
      { fds := [{ fd := 5, pollout := false }, { fd := 6, pollout := false }],
        infos :=
          [{ id := 1, sock := 5, fds_index := 0, net_tag := .infoClosed,
             delete_me := true, hook := [2] },
           { id := 2, sock := 6, fds_index := 1, net_tag := .tcpConnection,
             delete_me := false, hook := [] }],
        deleteFlag := true }).deleteFlag = false ∧
    Clean (o2n_free_deleted_sockets 4
      { fds := [{ fd := 5, pollout := false }, { fd := 6, pollout := false }],
        infos :=
          [{ id := 1, sock := 5, fds_index := 0, net_tag := .infoClosed,
             delete_me := true, hook := [2] },
           { id := 2, sock := 6, fds_index := 1, net_tag := .tcpConnection,
             delete_me := false, hook := [] }],
        deleteFlag := true }) :=
  sweep_removes_all_pending 4
    { fds := [{ fd := 5, pollout := false }, { fd := 6, pollout := false }],
      infos :=
        [{ id := 1, sock := 5, fds_index := 0, net_tag := .infoClosed,
           delete_me := true, hook := [2] },
         { id := 2, sock := 6, fds_index := 1, net_tag := .tcpConnection,
           delete_me := false, hook := [] }],
      deleteFlag := true }
    (by decide) (by decide)

/-! ### TCP client creation (`Fds_info::create_tcp_client`) -/

/-- Outcome of the non-blocking `connect` syscall: immediate success,
`-1` with `errno == EINPROGRESS`, or `-1` with any other `errno`. -/
inductive ConnectRes where
  | ok
  | inProgress
  | err
deriving DecidableEq, Repr

/-- `Fds_info::create_tcp_client(remote_addr)`: construct an `Fds_info`
with tag `NET_TCP_CONNECTING` (appending to both registry arrays), then
issue `connect`.  On `EINPROGRESS`, set `POLLOUT` on the new descriptor.
On any other failure, `cleanup`: close the socket, pop both arrays and
delete the info, returning `NULL`.  On immediate success, set the tag to
`NET_TCP_CLIENT` (and nothing else).  Returns the retained registry
index (or `none`), the registry, and whether the socket was closed. -/
def create_tcp_client (reg : Reg) (sock : Int) (id : Nat) (hook : List Nat)
    (res : ConnectRes) : Option Nat × Reg × Bool :=
  let reg1 := mkFdsInfo reg sock .tcpConnecting id hook
  let idx := reg.fds.length
  match res with
  | .err =>
    (none, { reg1 with fds := reg1.fds.dropLast, infos := reg1.infos.dropLast },
     true)
  | .inProgress =>
    let pfd : Pollfd := { reg1.fds.getD idx dfltFd with pollout := true }
    (some idx, { reg1 with fds := reg1.fds.set idx pfd }, false)
  | .ok =>
    let fi : RInfo := { reg1.infos.getD idx dummyInfo with net_tag := .tcpClient }
    (some idx, { reg1 with infos := reg1.infos.set idx fi }, false)

/-- The write-ready dispatch of `o2n_recv` for one descriptor: `poll`
reports `POLLOUT` in `revents` only when it was requested in `events`
and the socket is writable; when the connection is still
`NET_TCP_CONNECTING`, the tag becomes `NET_TCP_CLIENT` and
`owner->connected()` is invoked (when an owner is attached).  Returns
the new tag and whether `connected()` was called. -/
def polloutDispatch (pfd : Pollfd) (tag : NetTag) (hasOwner : Bool)
    (socketWritable : Bool) : NetTag × Bool :=
  if pfd.pollout && socketWritable then
    if tag = .tcpConnecting then (.tcpClient, hasOwner)
    else (tag, false)
  else (tag, false)

/-- Counterexample to C8: on an immediate `connect` success the code
sets `NET_TCP_CLIENT` but registers no write-interest, so the next tick
— even with the socket writable and an owner attached — never reaches
the `connected()` notification (the `POLLOUT` branch requires the event
to have been requested, and the tag is no longer `NET_TCP_CONNECTING`).
Concretely: create a client on an empty registry with `connect`
succeeding; the new entry is a `tcpClient` with `pollout = false`, and
the dispatch invokes no `connected()`. -/
theorem create_tcp_client_ok_no_connected :
    ((create_tcp_client ⟨[], [], false⟩ 5 1 [] .ok).2.1.infos.getD 0
        dummyInfo).net_tag = .tcpClient ∧
    ((create_tcp_client ⟨[], [], false⟩ 5 1 [] .ok).2.1.fds.getD 0
        dfltFd).pollout = false ∧
    (polloutDispatch
        ((create_tcp_client ⟨[], [], false⟩ 5 1 [] .ok).2.1.fds.getD 0 dfltFd)
        ((create_tcp_client ⟨[], [], false⟩ 5 1 [] .ok).2.1.infos.getD 0
          dummyInfo).net_tag
        true true).2 = false := by
  decide

/-- C8 (amended): `create_tcp_client` on a fresh non-blocking socket:
immediate `connect` success transitions the new connection directly to
`NET_TCP_CLIENT` (no write-interest is registered and the next tick does
not invoke `connected()`); an in-progress result leaves it
`NET_TCP_CONNECTING` with write-interest registered; any other failure
closes the socket, returns a synchronous error (`NULL`) and retains no
connection — the registry is exactly as before the call. -/
theorem create_tcp_client_cases (reg : Reg) (sock : Int) (id : Nat)
    (hook : List Nat) (hlen : reg.fds.length = reg.infos.length) :
    ((create_tcp_client reg sock id hook .ok).1 = some reg.fds.length ∧
     ((create_tcp_client reg sock id hook .ok).2.1.infos.getD
        reg.infos.length dummyInfo).net_tag = .tcpClient ∧
     ((create_tcp_client reg sock id hook .ok).2.1.fds.getD
        reg.infos.length dfltFd).pollout = false ∧
     (∀ hasOwner writable : Bool,
       (polloutDispatch
          ((create_tcp_client reg sock id hook .ok).2.1.fds.getD
            reg.infos.length dfltFd)
          ((create_tcp_client reg sock id hook .ok).2.1.infos.getD
            reg.infos.length dummyInfo).net_tag
          hasOwner writable).2 = false) ∧
     (create_tcp_client reg sock id hook .ok).2.2 = false) ∧
    ((create_tcp_client reg sock id hook .inProgress).1 = some reg.fds.length ∧
     ((create_tcp_client reg sock id hook .inProgress).2.1.infos.getD
        reg.infos.length dummyInfo).net_tag = .tcpConnecting ∧
     ((create_tcp_client reg sock id hook .inProgress).2.1.fds.getD
        reg.infos.length dfltFd).pollout = true ∧
     (create_tcp_client reg sock id hook .inProgress).2.2 = false) ∧
    ((create_tcp_client reg sock id hook .err).1 = none ∧
     (create_tcp_client reg sock id hook .err).2.1 = reg ∧
     (create_tcp_client reg sock id hook .err).2.2 = true) := by
  have hfds1 : (mkFdsInfo reg sock .tcpConnecting id hook).fds.getD
      reg.fds.length dfltFd = { fd := sock, pollout := false } := by
    unfold mkFdsInfo
    rw [List.getD_append_right _ _ _ _ (by omega)]
    simp
  have hinfos1 : (mkFdsInfo reg sock .tcpConnecting id hook).infos.getD
      reg.fds.length dummyInfo =
      { id := id, sock := sock, fds_index := reg.fds.length,
        net_tag := .tcpConnecting, delete_me := false, hook := hook } := by
    unfold mkFdsInfo
    rw [hlen, List.getD_append_right _ _ _ _ (by omega)]
    simp
  have hokInfos : (create_tcp_client reg sock id hook .ok).2.1.infos.getD
      reg.infos.length dummyInfo =
      { (mkFdsInfo reg sock .tcpConnecting id hook).infos.getD reg.fds.length
          dummyInfo with net_tag := NetTag.tcpClient } := by
    rw [← hlen]
    exact getD_set_self (by simp [mkFdsInfo] <;> omega)
  have hokFds : (create_tcp_client reg sock id hook .ok).2.1.fds =
      (mkFdsInfo reg sock .tcpConnecting id hook).fds := rfl
  have hipInfos : (create_tcp_client reg sock id hook .inProgress).2.1.infos =
      (mkFdsInfo reg sock .tcpConnecting id hook).infos := rfl
  have hipFds : (create_tcp_client reg sock id hook .inProgress).2.1.fds.getD
      reg.infos.length dfltFd =
      { (mkFdsInfo reg sock .tcpConnecting id hook).fds.getD reg.fds.length
          dfltFd with pollout := true } := by
    rw [← hlen]
    exact getD_set_self (by simp [mkFdsInfo] <;> omega)
  refine ⟨⟨rfl, ?_, ?_, ?_, rfl⟩, ⟨rfl, ?_, ?_, rfl⟩, rfl, ?_, rfl⟩
  · rw [hokInfos]
  · rw [hokFds, ← hlen, hfds1]
  · intro hasOwner writable
    rw [hokInfos, hokFds, ← hlen, hfds1]
    unfold polloutDispatch
    simp
  · rw [hipInfos, ← hlen, hinfos1]
  · rw [hipFds]
  · show ({ mkFdsInfo reg sock .tcpConnecting id hook with
            fds := (mkFdsInfo reg sock .tcpConnecting id hook).fds.dropLast,
            infos := (mkFdsInfo reg sock .tcpConnecting id hook).infos.dropLast }
          : Reg) = reg
    unfold mkFdsInfo
    cases reg with
    | mk fds infos flag => simp

/-- Witness for C8's amended statement on an empty registry. -/
theorem create_tcp_client_cases_witness :
    (create_tcp_client ⟨[], [], false⟩ 5 1 [] .inProgress).1 = some 0 ∧
    (create_tcp_client ⟨[], [], false⟩ 5 1 [] .err).2.1 = (⟨[], [], false⟩ : Reg) := by
  have h := create_tcp_client_cases ⟨[], [], false⟩ 5 1 [] (by decide)
  exact ⟨h.2.1.1, h.2.2.2.1⟩

/-! ### UDP utility senders

Each sender performs exactly one `sendto` syscall (modelled by its result
value) and never retries.  The `List NMessage` component records the
messages freed (`O2_FREE`) by the call. -/

/-- `o2n_send_udp_via_socket`: `sendto`, then `O2_FREE(msg)`
unconditionally; a negative result is reported as `O2_FAIL` after a
diagnostic `perror`, a non-negative one as `O2_SUCCESS`. -/
def o2n_send_udp_via_socket (sendtoResult : Int) (msg : NMessage) :
    O2err × List NMessage :=
  if sendtoResult < 0 then (.fail, [msg]) else (.success, [msg])

/-- `o2n_send_udp` (direct-address send): delegates to
`o2n_send_udp_via_socket` on the general UDP send socket. -/
def o2n_send_udp (sendtoResult : Int) (msg : NMessage) :
    O2err × List NMessage :=
  o2n_send_udp_via_socket sendtoResult msg

/-- `o2n_send_udp_local` (loopback send): `sendto` to the loopback
address; a negative result only gets a diagnostic `perror`; `O2_FREE(msg)`
unconditionally; no value is returned. -/
def o2n_send_udp_local (sendtoResult : Int) (port : Nat) (msg : NMessage) :
    List NMessage :=
  [msg]

/-- `o2n_send_broadcast`: `sendto` to the broadcast address; a negative
result only gets a diagnostic `perror`; the raw `sendto` result is
returned and — per the comment `msg is owned by caller` — the message is
not freed. -/
def o2n_send_broadcast (sendtoResult : Int) (port : Nat) (msg : NMessage) :
    Int × List NMessage :=
  (sendtoResult, [])

/-- Counterexample to C9: the broadcast sender does not consume or free
the message it is given — at a concrete failing `sendto` the freed set
is empty (the caller keeps ownership), contradicting the claim that all
three senders free the message regardless of outcome. -/
theorem o2n_send_broadcast_does_not_free :
    (o2n_send_broadcast (-1) 4444 ⟨1, [42]⟩).2 = [] ∧
    ⟨1, [42]⟩ ∉ (o2n_send_broadcast (-1) 4444 ⟨1, [42]⟩).2 := by
  constructor
  · rfl
  · intro h
    simp [o2n_send_broadcast] at h

/-- C9 (amended): the direct-address and loopback UDP senders consume
and free their message regardless of whether `sendto` succeeds or fails,
reporting failures only to a diagnostic channel and never retrying (each
performs exactly one `sendto`); the broadcast sender likewise reports
failures only diagnostically and never retries, but leaves message
ownership with the caller (it frees nothing) and returns the raw
`sendto` result. -/
theorem udp_senders_ownership (r : Int) (p : Nat) (m : NMessage) :
    (o2n_send_udp_via_socket r m).2 = [m] ∧
    (o2n_send_udp r m).2 = [m] ∧
    o2n_send_udp_local r p m = [m] ∧
    (o2n_send_broadcast r p m).2 = [] ∧
    (o2n_send_broadcast r p m).1 = r ∧
    (r < 0 → (o2n_send_udp_via_socket r m).1 = .fail) ∧
    (0 ≤ r → (o2n_send_udp_via_socket r m).1 = .success) := by
  refine ⟨?_, ?_, rfl, rfl, rfl, ?_, ?_⟩
  · unfold o2n_send_udp_via_socket
    by_cases hr : r < 0 <;> simp [hr]
  · unfold o2n_send_udp o2n_send_udp_via_socket
    by_cases hr : r < 0 <;> simp [hr]
  · intro hr
    unfold o2n_send_udp_via_socket
    simp [hr]
  · intro hr
    unfold o2n_send_udp_via_socket
    rw [if_neg (by omega)]

/-- Witness for C9's amended statement at a failing `sendto`. -/
theorem udp_senders_ownership_witness :
    (o2n_send_udp_via_socket (-1) ⟨1, [42]⟩).2 = [⟨1, [42]⟩] ∧
    (o2n_send_udp_via_socket (-1) ⟨1, [42]⟩).1 = .fail ∧
    (o2n_send_broadcast (-1) 4444 ⟨1, [42]⟩).2 = [] := by
  have h := udp_senders_ownership (-1) 4444 ⟨1, [42]⟩
  exact ⟨h.1, h.2.2.2.2.2.1 (by norm_num), h.2.2.2.1⟩

/-! ### Incremental receive assembly (`Fds_info::read_whole_message`)

The inbound assembly state of a framed TCP connection and the non-raw
path of `read_whole_message`.  A `recvfrom` requesting `r` bytes when
`avail` bytes are buffered on the socket returns `min r avail` of them;
with nothing buffered the non-blocking socket reports
`EAGAIN`/`EWOULDBLOCK`, a non-terminating error, so the function returns
`O2_FAIL` (incomplete) with all accumulated state preserved. -/

structure AsmState where
  in_length_got : Nat
  in_length_bytes : List Byte
  in_length : Nat
  in_msg_got : Nat
  in_message : Option (List Byte)
deriving DecidableEq, Repr

/-- The assembly state set up by the `Fds_info` constructor and by
`message_cleanup`. -/
def initAsm : AsmState :=
  { in_length_got := 0, in_length_bytes := [], in_length := 0,
    in_msg_got := 0, in_message := none }

/-- `O2_SUCCESS` (whole message read) or `O2_FAIL` (incomplete, resume
later) as returned by `read_whole_message`. -/
inductive ReadRes where
  | success
  | fail
deriving DecidableEq, Repr

/-- Phase 2 of `read_whole_message`: accumulate payload bytes until
`in_msg_got` reaches the declared `in_length`.  Returns the result, the
new state, and the bytes left unread on the socket. -/
def readPayloadPhase (st : AsmState) (avail : List Byte) :
    ReadRes × AsmState × List Byte :=
  if st.in_msg_got < st.in_length then
    let req := st.in_length - st.in_msg_got
    let n := min req avail.length
    if n = 0 then (.fail, st, avail)
    else
      let st1 : AsmState :=
        { st with in_message := some (st.in_message.getD [] ++ avail.take n),
                  in_msg_got := st.in_msg_got + n }
      if st1.in_msg_got < st1.in_length then (.fail, st1, avail.drop n)
      else (.success, st1, avail.drop n)
  else (.success, st, avail)

/-- The framed (non-raw) path of `Fds_info::read_whole_message`:
phase 1 requests `4 - in_length_got` header bytes; once 4 have arrived
the length is decoded (`htonl`), the assembly buffer is allocated and
phase 2 runs in the same call. -/
def read_whole_message (st : AsmState) (avail : List Byte) :
    ReadRes × AsmState × List Byte :=
  if st.in_length_got < 4 then
    let req := 4 - st.in_length_got
    let n := min req avail.length
    if n = 0 then (.fail, st, avail)
    else
      let st1 : AsmState :=
        { st with in_length_bytes := st.in_length_bytes ++ avail.take n,
                  in_length_got := st.in_length_got + n }
      if st1.in_length_got < 4 then (.fail, st1, avail.drop n)
      else
        let st2 : AsmState :=
          { st1 with in_length := beDecode st1.in_length_bytes,
                     in_message := some [], in_msg_got := 0 }
        readPayloadPhase st2 (avail.drop n)
  else readPayloadPhase st avail

/-- One read-ready event of `read_event_handler` on a framed TCP
connection: run `read_whole_message` on the buffered bytes; on
`O2_SUCCESS` the assembled message (length `in_length`) is delivered and
`message_cleanup` resets the state. -/
def readEvent (st : AsmState) (avail : List Byte) :
    AsmState × List Byte × Option NMessage :=
  match read_whole_message st avail with
  | (.success, st1, left) =>
    (initAsm, left, some ⟨st1.in_length, st1.in_message.getD []⟩)
  | (.fail, st1, left) => (st1, left, none)

/-- Run successive read-ready events, each delivering one new chunk of
socket data (appended to any bytes left unread by the previous event);
collects the message delivered by each event, if any. -/
def runEvents (st : AsmState) (buf : List Byte) :
    List (List Byte) → List (Option NMessage)
  | [] => []
  | c :: cs =>
    let r := readEvent st (buf ++ c)
    r.2.2 :: runEvents r.1 r.2.1 cs

/-- The assembly state after the first `j` wire bytes of the frame
`be4 L ++ p` have been consumed. -/
def stateFor (L : Nat) (p : List Byte) (j : Nat) : AsmState :=
  if j < 4 then
    { in_length_got := j, in_length_bytes := (be4 L).take j, in_length := 0,
      in_msg_got := 0, in_message := none }
  else
    { in_length_got := 4, in_length_bytes := be4 L, in_length := L,
      in_msg_got := j - 4, in_message := some (p.take (j - 4)) }

theorem readPayloadPhase_step {L : Nat} {p : List Byte} (hL : L = p.length)
    (g a : Nat) (hg : g ≤ L) (ha : a ≤ L - g) :
    readPayloadPhase
        { in_length_got := 4, in_length_bytes := be4 L, in_length := L,
          in_msg_got := g, in_message := some (p.take g) }
        ((p.drop g).take a) =
      (if g + a < L then ReadRes.fail else ReadRes.success,
       { in_length_got := 4, in_length_bytes := be4 L, in_length := L,
         in_msg_got := g + a, in_message := some (p.take (g + a)) },
       []) := by
  have hlen : ((p.drop g).take a).length = a := by
    simp
    omega
  unfold readPayloadPhase
  by_cases hgl : g < L
  · rw [if_pos (by simpa using hgl)]
    by_cases ha0 : a = 0
    · subst ha0
      rw [if_pos (by simp only [hlen]; omega)]
      simp only [List.take_zero, Nat.add_zero, if_pos hgl]
    · have hmin : min (L - g) ((p.drop g).take a).length = a := by
        rw [hlen]; omega
      rw [if_neg (by simp only [hmin]; omega)]
      simp only [hmin]
      have htk : p.take g ++ (((p.drop g).take a).take a) = p.take (g + a) := by
        rw [List.take_take, min_self, List.take_add]
      have hdp : ((p.drop g).take a).drop a = [] := by
        apply List.eq_nil_of_length_eq_zero
        simp only [List.length_drop, hlen]
        omega
      simp only [Option.getD_some, htk, hdp]
      by_cases hfin : g + a < L
      · rw [if_pos (by simpa using hfin), if_pos hfin]
      · rw [if_neg (by simpa using hfin), if_neg hfin]
  · rw [if_neg (by simpa using hgl)]
    have hgL : g = L := by omega
    have ha0 : a = 0 := by omega
    subst hgL; subst ha0
    have hdp : (p.drop g).take 0 = [] := List.take_zero _
    rw [hdp, if_neg (by omega)]
    simp

theorem read_whole_message_step {L : Nat} {p : List Byte} (hL : L = p.length)
    (hlt : L < 2 ^ 32) (j a : Nat) (hj : j < 4 + L) (ha1 : 1 ≤ a)
    (ha2 : a ≤ 4 + L - j) :
    read_whole_message (stateFor L p j) (((be4 L ++ p).drop j).take a) =
      (if j + a < 4 + L then ReadRes.fail else ReadRes.success,
       stateFor L p (j + a), []) := by
  have hframe : (be4 L ++ p).length = 4 + L := by simp [hL]
  have havail : (((be4 L ++ p).drop j).take a).length = a := by
    simp only [List.length_take, List.length_drop, hframe]
    omega
  by_cases hj4 : j < 4
  · -- header phase not yet complete
    have hdrops : (be4 L ++ p).drop j = (be4 L).drop j ++ p :=
      List.drop_append_of_le_length (by simp only [be4_length]; omega)
    have hsfj : stateFor L p j =
        { in_length_got := j, in_length_bytes := (be4 L).take j, in_length := 0,
          in_msg_got := 0, in_message := none } := by
      unfold stateFor
      rw [if_pos hj4]
    rw [read_whole_message, hsfj]
    rw [if_pos (show j < 4 from hj4)]
    by_cases hja : j + a < 4
    · -- the chunk ends inside the header
      have hmin : min (4 - j) (((be4 L ++ p).drop j).take a).length = a := by
        rw [havail]; omega
      rw [if_neg (by rw [hmin]; omega)]
      simp only [hmin]
      rw [if_pos (show j + a < 4 by omega)]
      have htk : (((be4 L ++ p).drop j).take a).take a =
          ((be4 L).drop j).take a := by
        rw [List.take_take, min_self, hdrops,
            List.take_append_of_le_length (by simp only [List.length_drop, be4_length]; omega)]
      have hleft : (((be4 L ++ p).drop j).take a).drop a = [] := by
        apply List.eq_nil_of_length_eq_zero
        simp only [List.length_drop, havail]
        omega
      rw [htk, hleft]
      have hbytes : (be4 L).take j ++ ((be4 L).drop j).take a =
          (be4 L).take (j + a) := (List.take_add _ _ _).symm
      rw [hbytes]
      rw [if_pos (show j + a < 4 + L by omega)]
      have hsfja : stateFor L p (j + a) =
          { in_length_got := j + a, in_length_bytes := (be4 L).take (j + a),
            in_length := 0, in_msg_got := 0, in_message := none } := by
        unfold stateFor
        rw [if_pos hja]
      rw [hsfja]
    · -- the header completes during this event
      have hmin : min (4 - j) (((be4 L ++ p).drop j).take a).length = 4 - j := by
        rw [havail]; omega
      rw [if_neg (by rw [hmin]; omega)]
      simp only [hmin]
      rw [if_neg (show ¬j + (4 - j) < 4 by omega)]
      have htk : (((be4 L ++ p).drop j).take a).take (4 - j) =
          (be4 L).drop j := by
        rw [List.take_take, min_eq_left (by omega), hdrops,
            List.take_append_of_le_length (by simp only [List.length_drop, be4_length]; omega)]
        exact List.take_all_of_le (by simp only [List.length_drop, be4_length]; omega)
      have hleft : (((be4 L ++ p).drop j).take a).drop (4 - j) =
          p.take (a - (4 - j)) := by
        rw [List.drop_take, hdrops]
        have h4j : (4 : Nat) - j = ((be4 L).drop j).length := by
          simp only [List.length_drop, be4_length]
        rw [h4j, List.drop_left]
      rw [htk, hleft]
      have hbytes : (be4 L).take j ++ (be4 L).drop j = be4 L :=
        List.take_append_drop _ _
      rw [hbytes, beDecode_be4 hlt]
      rw [show j + (4 - j) = 4 from by omega]
      have hstep := readPayloadPhase_step hL 0 (a - (4 - j)) (by omega) (by omega)
      simp only [List.drop_zero, List.take_zero] at hstep
      rw [hstep]
      have hsz : 0 + (a - (4 - j)) = j + a - 4 := by omega
      have hcond : (j + a - 4 < L) = (j + a < 4 + L) := by
        apply propext
        constructor <;> intro h <;> omega
      simp only [hsz, hcond]
      have hsf2 : stateFor L p (j + a) =
          { in_length_got := 4, in_length_bytes := be4 L, in_length := L,
            in_msg_got := j + a - 4, in_message := some (p.take (j + a - 4)) } := by
        unfold stateFor
        rw [if_neg (by omega)]
      rw [hsf2]
  · -- already in the payload phase
    have hdropp : (be4 L ++ p).drop j = p.drop (j - 4) := by
      have hsplit : j = (be4 L).length + (j - 4) := by
        simp only [be4_length]
        omega
      rw [hsplit, List.drop_append]
      congr 1
      simp only [be4_length]
      omega
    have hsf : stateFor L p j =
        { in_length_got := 4, in_length_bytes := be4 L, in_length := L,
          in_msg_got := j - 4, in_message := some (p.take (j - 4)) } := by
      unfold stateFor
      rw [if_neg (by omega)]
    rw [read_whole_message, hsf]
    rw [if_neg (show ¬(4 : Nat) < 4 by omega)]
    rw [hdropp]
    have hstep := readPayloadPhase_step hL (j - 4) a (by omega) (by omega)
    rw [hstep]
    have hsz : j - 4 + a = j + a - 4 := by omega
    have hcond : (j + a - 4 < L) = (j + a < 4 + L) := by
      apply propext
      constructor <;> intro h <;> omega
    simp only [hsz, hcond]
    have hsf2 : stateFor L p (j + a) =
        { in_length_got := 4, in_length_bytes := be4 L, in_length := L,
          in_msg_got := j + a - 4, in_message := some (p.take (j + a - 4)) } := by
      unfold stateFor
      rw [if_neg (by omega)]
    rw [hsf2]

theorem runEvents_frame {L : Nat} {p : List Byte} (hL : L = p.length)
    (hlt : L < 2 ^ 32) :
    ∀ (cs : List (List Byte)) (j : Nat), cs ≠ [] → (∀ c ∈ cs, c ≠ []) →
      cs.flatten = (be4 L ++ p).drop j → j < 4 + L →
      runEvents (stateFor L p j) [] cs =
        List.replicate (cs.length - 1) none ++ [some ⟨L, p⟩] := by
  intro cs
  induction cs with
  | nil => intro j hne; exact absurd rfl hne
  | cons c cs ih =>
    intro j hne hnee hcat hj
    have hframe : (be4 L ++ p).length = 4 + L := by simp [hL]
    have hc := hnee c (by simp)
    have hflat : c ++ cs.flatten = (be4 L ++ p).drop j := by simpa using hcat
    have hclen : c.length ≤ 4 + L - j := by
      have hlenfl := congrArg List.length hflat
      simp only [List.length_append, List.length_drop, hframe] at hlenfl
      omega
    have hcval : c = ((be4 L ++ p).drop j).take c.length := by
      rw [← hflat, List.take_left]
    have hrest : cs.flatten = (be4 L ++ p).drop (j + c.length) := by
      have h1 : (c ++ cs.flatten).drop c.length = cs.flatten := List.drop_left _ _
      rw [hflat] at h1
      rw [← h1, List.drop_drop, Nat.add_comm]
    have ha1 : 1 ≤ c.length := by
      cases c with
      | nil => exact absurd rfl hc
      | cons x xs => simp
    have hstep := read_whole_message_step hL hlt j c.length hj ha1 hclen
    rw [← hcval] at hstep
    rw [runEvents]
    simp only [List.nil_append]
    by_cases hlast : j + c.length < 4 + L
    · -- an intermediate chunk: incomplete, state preserved
      rw [if_pos hlast] at hstep
      have hcs_ne : cs ≠ [] := by
        intro hnil
        rw [hnil] at hrest
        have := congrArg List.length hrest
        simp only [List.flatten_nil, List.length_nil, List.length_drop,
          hframe] at this
        omega
      have hev : readEvent (stateFor L p j) c =
          (stateFor L p (j + c.length), [], none) := by
        unfold readEvent
        rw [hstep]
      rw [hev]
      have hih := ih (j + c.length) hcs_ne
        (fun c' hc' => hnee c' (by simp [hc'])) hrest hlast
      simp only []
      rw [hih]
      have hlen1 : cs.length = cs.length - 1 + 1 := by
        cases cs with
        | nil => exact absurd rfl hcs_ne
        | cons a b => simp
      rw [show (c :: cs).length - 1 = cs.length by simp]
      rw [hlen1, List.replicate_succ]
      simp
    · -- the final chunk completes the frame
      rw [if_neg hlast] at hstep
      have hfull : j + c.length = 4 + L := by omega
      have hcs_nil : cs = [] := by
        cases cs with
        | nil => rfl
        | cons c' cs' =>
          rw [hfull] at hrest
          have : (be4 L ++ p).drop (4 + L) = [] := by
            apply List.eq_nil_of_length_eq_zero
            simp only [List.length_drop, hframe]
            omega
          rw [this] at hrest
          have h2 : c' = [] ∧ ∀ l ∈ cs', l = [] := by simpa using hrest
          exact absurd h2.1 (hnee c' (by simp))
      subst hcs_nil
      have hsf : stateFor L p (j + c.length) =
          { in_length_got := 4, in_length_bytes := be4 L, in_length := L,
            in_msg_got := j + c.length - 4,
            in_message := some (p.take (j + c.length - 4)) } := by
        unfold stateFor
        rw [if_neg (by omega)]
      have htkp : p.take (j + c.length - 4) = p := by
        apply List.take_all_of_le
        omega
      have hev : readEvent (stateFor L p j) c = (initAsm, [], some ⟨L, p⟩) := by
        unfold readEvent
        rw [hstep, hsf, htkp]
        rfl
      rw [hev]
      simp [runEvents]

/-- C5: For every way of splitting a framed message's wire bytes into
non-empty chunks arriving across successive read-ready events (including
a 1-byte first chunk), the framed-TCP receive path accumulates exactly 4
header bytes, decodes the declared length, then accumulates exactly that
many payload bytes, returning incomplete (`O2_FAIL`) without losing
accumulated state whenever a chunk is exhausted, and assembles exactly
one logical message per framed unit regardless of chunk boundaries:
every event but the last yields no message, and the last delivers
exactly the framed payload. -/
theorem read_chunked_framing (p : List Byte) (cs : List (List Byte))
    (hlt : p.length < 2 ^ 32) (hne : ∀ c ∈ cs, c ≠ [])
    (hcat : cs.flatten = be4 p.length ++ p) :
    runEvents initAsm [] cs =
      List.replicate (cs.length - 1) none ++ [some ⟨p.length, p⟩] := by
  have hcs : cs ≠ [] := by
    intro h
    rw [h] at hcat
    have := congrArg List.length hcat
    simp [be4] at this
  have hinit : initAsm = stateFor p.length p 0 := by
    unfold initAsm stateFor
    rw [if_pos (by omega)]
    simp
  rw [hinit]
  exact runEvents_frame rfl hlt cs 0 hcs hne (by simpa using hcat) (by omega)

/-- Witness for C5: the frame for payload `[9, 8, 7]` split as
`[0] / [0,0,3,9] / [8] / [7]` (a 1-byte first chunk, a chunk spanning the
header/payload boundary): three incomplete events then exactly one
delivered message. -/
theorem read_chunked_framing_witness :
    runEvents initAsm [] [[0], [0, 0, 3, 9], [8], [7]] =
      [none, none, none, some ⟨3, [9, 8, 7]⟩] := by
  have h := read_chunked_framing [9, 8, 7] [[0], [0, 0, 3, 9], [8], [7]]
    (by decide) (by decide) (by decide)
  simpa using h

end O2Net
